import Mathlib

/-!
Shallow embedding of the warehouse multi-robot simulation
(`warehouse/warehouse.py`, `warehouse/robot.py`) and verification of its
specification claims.

Grid positions are `(row, column)` pairs of integers (Python ints are
unbounded, and robot moves may compute candidate positions such as `-1`
before the domain check rejects them).

The `Item` class (module `warehouse.item`) is not among the provided source
files; it is modelled from the spec (§4.1): construction with `(id, position)`
starts `waiting_time` at 0, and `increase_waiting_time` increments it by 1.
-/

/-- A grid position `(row, column)`. -/
abbrev Pos : Type := ℤ × ℤ

/-- Modelled from the spec: `warehouse/item.py` is missing from the sources.
Spec §4.1: an item has an `id`, a `position` and a `waiting_time` that starts
at 0 on construction. -/
structure Item where
  id : ℕ
  position : Pos
  waiting_time : ℕ
deriving DecidableEq, Repr

/-- Modelled from the spec: `Item.increase_waiting_time` increments the
counter by 1, no bound. -/
def Item.increase_waiting_time (it : Item) : Item :=
  { it with waiting_time := it.waiting_time + 1 }

/-- A robot domain `[row_min, col_min, row_max, col_max]`
(Python list `robot_domain`). -/
structure Domain where
  r0 : ℤ
  c0 : ℤ
  r2 : ℤ
  c3 : ℤ
deriving DecidableEq, Repr

/-- `domain[0] <= p[0] <= domain[2] and domain[1] <= p[1] <= domain[3]`,
the bound check of `Robot.set_position` and `Robot._get_items_robot_region`. -/
def Domain.contains (d : Domain) (p : Pos) : Prop :=
  d.r0 ≤ p.1 ∧ p.1 ≤ d.r2 ∧ d.c0 ≤ p.2 ∧ p.2 ≤ d.c3

instance (d : Domain) (p : Pos) : Decidable (d.contains p) := by
  unfold Domain.contains; infer_instance

/-- `Robot` (robot.py): id, mutable position, fixed domain. -/
structure Robot where
  id : ℕ
  pos : Pos
  domain : Domain
deriving DecidableEq, Repr

/-- The candidate position computed by `Robot.act` for actions
0=UP, 1=DOWN, 2=LEFT, 3=RIGHT. -/
def Robot.newPos (r : Robot) (action : Fin 4) : Pos :=
  match action with
  | 0 => (r.pos.1 - 1, r.pos.2)
  | 1 => (r.pos.1 + 1, r.pos.2)
  | 2 => (r.pos.1, r.pos.2 - 1)
  | 3 => (r.pos.1, r.pos.2 + 1)

/-- `Robot.set_position`: the new position is applied only when it lies in
the robot's domain (inclusive bounds); otherwise the call is a no-op. -/
def Robot.set_position (r : Robot) (new_pos : Pos) : Robot :=
  if r.domain.contains new_pos then { r with pos := new_pos } else r

/-- `Robot.act`: compute the candidate position for the action and attempt
to apply it via `set_position`. -/
def Robot.act (r : Robot) (action : Fin 4) : Robot :=
  r.set_position (r.newPos action)

/-- C3. For every robot whose position lies within its domain and every
action in {0,1,2,3}, the position after `Robot.act` still satisfies
`domain[0] <= position[0] <= domain[2]` and
`domain[1] <= position[1] <= domain[3]`; moreover if the candidate position
computed from the action is outside the domain the position is unchanged
(a silent no-op, not an error). -/
theorem Robot.act_domain_containment (r : Robot) (a : Fin 4)
    (h : r.domain.contains r.pos) :
    (r.act a).domain = r.domain ∧
    (r.act a).domain.contains (r.act a).pos ∧
    (¬ r.domain.contains (r.newPos a) → (r.act a).pos = r.pos) := by
  unfold Robot.act Robot.set_position
  by_cases hc : r.domain.contains (r.newPos a)
  · simp [hc]
  · simp [hc]; exact h

/-- Witness for C3: a concrete robot at the corner of its domain, pushed
out by action UP, keeps its position and stays inside the domain. -/
theorem Robot.act_domain_containment_witness :
    let r : Robot := ⟨0, (0, 0), ⟨0, 0, 2, 2⟩⟩
    (r.act 0).domain = r.domain ∧
    (r.act 0).domain.contains (r.act 0).pos ∧
    (¬ r.domain.contains (r.newPos 0) → (r.act 0).pos = r.pos) :=
  Robot.act_domain_containment ⟨0, (0, 0), ⟨0, 0, 2, 2⟩⟩ 0 (by decide)

/-! ## Observation encoding (`Robot.observe`) -/

/-- Channel 0 of the global state bitmap (`Warehouse._get_state`): 1 at every
cell holding a live item, 0 elsewhere (a presence indicator, not a count). -/
def itemBit (items : List Item) (p : Pos) : ℤ :=
  if ∃ it ∈ items, it.position = p then 1 else 0

/-- Number of rows of a robot's domain slice. -/
def Domain.height (d : Domain) : ℕ := (d.r2 - d.r0 + 1).toNat

/-- Number of columns of a robot's domain slice. -/
def Domain.width (d : Domain) : ℕ := (d.c3 - d.c0 + 1).toNat

/-- The absolute row indices of the domain slice
`state[domain[0] : domain[2]+1]`. -/
def Domain.rowList (d : Domain) : List ℤ :=
  (List.range d.height).map fun i : ℕ => d.r0 + (i : ℤ)

/-- The absolute column indices of the domain slice
`state[:, domain[1] : domain[3]+1]`. -/
def Domain.colList (d : Domain) : List ℤ :=
  (List.range d.width).map fun j : ℕ => d.c0 + (j : ℤ)

/-- The interior rows of the domain (numpy slice `observation[1:-1]`). -/
def Domain.interiorRowList (d : Domain) : List ℤ :=
  (List.range (d.height - 2)).map fun i : ℕ => d.r0 + 1 + (i : ℤ)

/-- `Robot.observe` in `image` mode: the domain slice of the item channel
minus the one-hot robot self-location (`observation[:,:,0] + -1*robot_loc`),
as a row-major list of rows. -/
def imageObserve (items : List Item) (d : Domain) (rpos : Pos) : List (List ℤ) :=
  d.rowList.map fun r => d.colList.map fun c =>
    itemBit items (r, c) - (if (r, c) = rpos then 1 else 0)

/-- The flattened one-hot robot location over the domain cells, row-major
(`robot_loc.flatten()`). -/
def robotLocVec (d : Domain) (rpos : Pos) : List ℤ :=
  d.rowList.flatMap fun r => d.colList.map fun c =>
    if (r, c) = rpos then (1 : ℤ) else 0

/-- The boundary-ring item segment of the `vector` observation:
`observation[[0,-1], :, 0].flatten()` (all of the top row, then all of the
bottom row) followed by `observation[1:-1, [0,-1], 0].flatten()`
(numpy flattens the `(height-2, 2)` fancy-indexed array row-major, i.e.
per interior row its left-column bit then its right-column bit). -/
def itemVec (items : List Item) (d : Domain) : List ℤ :=
  ((d.colList.map fun c => itemBit items (d.r0, c)) ++
   (d.colList.map fun c => itemBit items (d.r2, c))) ++
  (d.interiorRowList.flatMap fun r =>
    [itemBit items (r, d.c0), itemBit items (r, d.c3)])

/-- `Robot.observe` in `vector` mode: one-hot self-location block followed by
the boundary-ring item segment. -/
def vectorObserve (items : List Item) (d : Domain) (rpos : Pos) : List ℤ :=
  robotLocVec d rpos ++ itemVec items d

/-- The boundary-ring order claimed by the spec (C4): all top-row bits, all
bottom-row bits, then all left-column bits over the interior rows, then all
right-column bits over the interior rows. -/
def itemVecClaimed (items : List Item) (d : Domain) : List ℤ :=
  (d.colList.map fun c => itemBit items (d.r0, c)) ++
  (d.colList.map fun c => itemBit items (d.r2, c)) ++
  (d.interiorRowList.map fun r => itemBit items (r, d.c0)) ++
  (d.interiorRowList.map fun r => itemBit items (r, d.c3))

/-- The amended boundary-ring order: top row, bottom row, then the zip of the
left-column and right-column interior bits interleaved pairwise
(left then right for each interior row in order). -/
def itemVecInterleaved (items : List Item) (d : Domain) : List ℤ :=
  (d.colList.map fun c => itemBit items (d.r0, c)) ++
  (d.colList.map fun c => itemBit items (d.r2, c)) ++
  (((d.interiorRowList.map fun r => itemBit items (r, d.c0)).zip
    (d.interiorRowList.map fun r => itemBit items (r, d.c3))).flatMap
      fun p => [p.1, p.2])

lemma getD_map_range {α : Type} (n : ℕ) (g : ℕ → α) (dflt : α) {i : ℕ}
    (h : i < n) : ((List.range n).map g).getD i dflt = g i := by
  rw [List.getD_eq_getElem _ _ (by simpa using h), List.getElem_map,
    List.getElem_range]

lemma robotLocVec_length (d : Domain) (rpos : Pos) :
    (robotLocVec d rpos).length = d.height * d.width := by
  unfold robotLocVec
  rw [List.length_flatMap]
  rw [List.map_congr_left (g := fun _ => d.width)
    (fun r _ => by simp [Domain.colList])]
  rw [List.map_const', List.sum_replicate]
  simp [Domain.rowList]

lemma zip_map_flatMap_pair {α β : Type} (l : List α) (f g : α → β) :
    ((l.map f).zip (l.map g)).flatMap (fun p => [p.1, p.2]) =
      l.flatMap fun x => [f x, g x] := by
  induction l with
  | nil => rfl
  | cons a l ih => simp [ih]

/-- C4 (amended). The part of the `vector` observation after the one-hot
self-location block equals: all item bits of the domain's top row, then all
item bits of the bottom row, then for each interior row in order its
left-column item bit immediately followed by its right-column item bit
(left/right interleaved per row). -/
theorem vectorObserve_boundary_ring (items : List Item) (d : Domain)
    (rpos : Pos) :
    (vectorObserve items d rpos).drop (d.height * d.width) =
      itemVecInterleaved items d := by
  unfold vectorObserve itemVecInterleaved
  rw [← robotLocVec_length d rpos, List.drop_left, itemVec,
    zip_map_flatMap_pair, List.append_assoc]

/-- Counterexample for C4 as stated: for the 5×5 domain `[0,0,4,4]` with a
single item at `(2,0)` (left column, middle interior row), the boundary-ring
segment produced by the code differs from the claimed
top/bottom/left-column/right-column order. -/
theorem vectorObserve_boundary_ring_cex :
    let d : Domain := ⟨0, 0, 4, 4⟩
    let items : List Item := [⟨0, (2, 0), 0⟩]
    (vectorObserve items d (2, 2)).drop (d.height * d.width) ≠
      itemVecClaimed items d := by
  decide

/-- C10 (amended). In `image` mode the observation value at the robot's own
cell equals `itemBit - 1`: it is 0 when a live item occupies the robot's cell
(the item's +1 and the self-marker's −1 cancel) and −1 when no item does, so
two states differing in item presence at the robot's cell yield *different*
image observations. -/
theorem imageObserve_robot_cell (items₁ items₂ : List Item) (d : Domain)
    (rpos : Pos) (hin : d.contains rpos)
    (h1 : itemBit items₁ rpos = 1) (h2 : itemBit items₂ rpos = 0) :
    (((imageObserve items₁ d rpos).getD (rpos.1 - d.r0).toNat []).getD
        (rpos.2 - d.c0).toNat 0 = 0) ∧
    (((imageObserve items₂ d rpos).getD (rpos.1 - d.r0).toNat []).getD
        (rpos.2 - d.c0).toNat 0 = -1) ∧
    imageObserve items₁ d rpos ≠ imageObserve items₂ d rpos := by
  obtain ⟨hr0, hr2, hc0, hc3⟩ := hin
  have hi : (rpos.1 - d.r0).toNat < d.height := by
    unfold Domain.height; omega
  have hj : (rpos.2 - d.c0).toNat < d.width := by
    unfold Domain.width; omega
  have key : ∀ items : List Item,
      ((imageObserve items d rpos).getD (rpos.1 - d.r0).toNat []).getD
        (rpos.2 - d.c0).toNat 0 = itemBit items rpos - 1 := by
    intro items
    unfold imageObserve Domain.rowList Domain.colList
    rw [List.map_map, getD_map_range _ _ _ hi, Function.comp_apply,
      List.map_map, getD_map_range _ _ _ hj, Function.comp_apply]
    have er : d.r0 + ((rpos.1 - d.r0).toNat : ℤ) = rpos.1 := by omega
    have ec : d.c0 + ((rpos.2 - d.c0).toNat : ℤ) = rpos.2 := by omega
    rw [er, ec]
    simp
  refine ⟨by rw [key items₁, h1]; ring, by rw [key items₂, h2]; ring, ?_⟩
  intro heq
  have := key items₁
  rw [heq, key items₂, h1, h2] at this
  norm_num at this

/-- Witness for C10 (amended): domain `[0,0,1,1]`, robot at `(0,0)`; with an
item at `(0,0)` the robot's cell reads 0, without it −1, and the two
observations differ. -/
theorem imageObserve_robot_cell_witness :
    let d : Domain := ⟨0, 0, 1, 1⟩
    (((imageObserve [⟨0, (0, 0), 0⟩] d (0, 0)).getD 0 []).getD 0 0 = 0) ∧
    (((imageObserve [] d (0, 0)).getD 0 []).getD 0 0 = -1) ∧
    imageObserve [⟨0, (0, 0), 0⟩] d (0, 0) ≠ imageObserve [] d (0, 0) :=
  imageObserve_robot_cell [⟨0, (0, 0), 0⟩] [] ⟨0, 0, 1, 1⟩ (0, 0)
    (by decide) (by decide) (by decide)

/-- Counterexample for C10 as stated: with domain `[0,0,1,1]` and the robot
at `(0,0)`, the state with an item at the robot's cell and the state without
one yield *different* image observations (0 versus −1 at the robot's cell),
contradicting the claimed indistinguishability. -/
theorem imageObserve_cancellation_cex :
    let d : Domain := ⟨0, 0, 1, 1⟩
    (((imageObserve [⟨0, (0, 0), 0⟩] d (0, 0)).getD 0 []).getD 0 0 = 0) ∧
    ¬ (((imageObserve [] d (0, 0)).getD 0 []).getD 0 0 = 0) ∧
    imageObserve [⟨0, (0, 0), 0⟩] d (0, 0) ≠ imageObserve [] d (0, 0) := by
  decide

/-! ## Warehouse: parameters, random streams, item spawning
(`Warehouse._add_items`, `Warehouse.seed`)

Randomness is modelled by two independent abstract streams, mirroring the two
pseudo-random sources the code actually uses:
* `npSeq : ℕ → ℕ → ℚ` gives the successive `np.random.uniform()` draws of the
  numpy global generator after `np.random.seed(s)`: draw number `k` after
  seeding with `s` is `npSeq s k`.  `Warehouse.seed` resets exactly this
  stream (`np.random.seed(seed)`).
* `pySeq : ℕ → Fin 4` gives the successive `random.randint(0, 3)` draws of
  the Python `random` module generator used by the robot policies; nothing in
  the code seeds or resets it. -/

/-- Configuration parameters read from `warehouse.yaml` (the fields the core
transition logic uses). -/
structure Params where
  n_rows : ℕ
  n_columns : ℕ
  distance_between_shelves : ℕ
  prob_item_appears : ℚ
  max_episode_length : ℕ
deriving Repr

/-- Python `range(0, stop, step)` for `step > 0`: the multiples of `step`
below `stop`. -/
def pyRangeStep (stop step : ℕ) : List ℕ :=
  (List.range ((stop + step - 1) / step)).map fun k => k * step

/-- The spawn-candidate cells of one pass of `Warehouse._add_items`, in
iteration order: for every `row in range(n_rows)`, if
`row % distance_between_shelves == 0` (a pick row) every
`column in range(n_columns)`; otherwise (an aisle row) every
`column in range(0, n_rows, distance_between_shelves)` — note the code uses
`n_rows`, not `n_columns`, as the bound of the aisle-row column range. -/
def addItemsCandidates (P : Params) : List Pos :=
  (List.range P.n_rows).flatMap fun row =>
    if row % P.distance_between_shelves = 0 then
      (List.range P.n_columns).map fun column : ℕ => ((row : ℤ), (column : ℤ))
    else
      (pyRangeStep P.n_rows P.distance_between_shelves).map
        fun column : ℕ => ((row : ℤ), (column : ℤ))

/-- The mutable state threaded through one `_add_items` pass: the item
roster, the monotonic item id counter, the numpy draw counter, and the
`item_locs` variable (`None` until it is first assigned). -/
structure AddState where
  items : List Item
  item_id : ℕ
  npIdx : ℕ
  itemLocs : Option (List Pos)
deriving Repr

/-- The body of the candidate loop of `_add_items`: always consume one
`np.random.uniform()` draw; `loc_free` is `True` when `item_locs` is `None`,
else `loc not in item_locs`; on `uniform() < prob_item_appears and loc_free`
append a fresh item and recompute `item_locs`. -/
def addItemsVisit (P : Params) (npSeq : ℕ → ℕ → ℚ) (seedv : ℕ)
    (s : AddState) (loc : Pos) : AddState :=
  let u := npSeq seedv s.npIdx
  let locFree : Bool := match s.itemLocs with
    | none => true
    | some locs => decide (loc ∉ locs)
  if u < P.prob_item_appears ∧ locFree = true then
    let items' := s.items ++ [⟨s.item_id, loc, 0⟩]
    { items := items', item_id := s.item_id + 1, npIdx := s.npIdx + 1,
      itemLocs := some (items'.map (·.position)) }
  else
    { s with npIdx := s.npIdx + 1 }

/-- `Warehouse._add_items`: initialize `item_locs` (`None` when the roster is
empty), then visit every candidate cell in order. -/
def addItems (P : Params) (npSeq : ℕ → ℕ → ℚ) (seedv : ℕ)
    (items : List Item) (item_id npIdx : ℕ) : AddState :=
  let init : AddState :=
    ⟨items, item_id, npIdx,
      if items.isEmpty then none else some (items.map (·.position))⟩
  (addItemsCandidates P).foldl (addItemsVisit P npSeq seedv) init

/-! ## Warehouse: reward and item removal
(`Warehouse._compute_reward`, `Warehouse._remove_items`) -/

/-- `Warehouse._compute_reward`: for every robot, for every item, if the
positions coincide add 1 to the reward. -/
def computeReward (robots : List Robot) (items : List Item) : ℕ :=
  robots.foldl (fun reward r =>
    items.foldl (fun reward it =>
      if r.pos.1 = it.position.1 ∧ r.pos.2 = it.position.2 then reward + 1
      else reward) reward) 0

/-- The inner loop of `_remove_items` for one robot, with Python's
list-iterator semantics: the iterator is about to yield index `i`; removing
the current element shifts the remainder left while the iterator still
advances, so the element after a removed one is skipped.  The `fuel`
argument only makes the recursion structural; the loop runs at most
`items.length` iterations (the index grows by 1 per iteration and the list
never grows), so any `fuel` with `items.length ≤ i + fuel` computes the
loop's fixpoint. -/
def removeLoopAux (rpos : Pos) : ℕ → ℕ → List Item → List Item
  | 0, _, items => items
  | fuel + 1, i, items =>
    if h : i < items.length then
      let it := items.get ⟨i, h⟩
      if rpos.1 = it.position.1 ∧ rpos.2 = it.position.2 then
        removeLoopAux rpos fuel (i + 1) (items.eraseIdx i)
      else
        removeLoopAux rpos fuel (i + 1) items
    else items

/-- One robot's scan of the item roster in `_remove_items`, starting the
iterator at index 0. -/
def removeLoop (rpos : Pos) (items : List Item) : List Item :=
  removeLoopAux rpos (items.length + 1) 0 items

/-- `Warehouse._remove_items`: every robot scans the item roster and removes
the items its position coincides with (mutating the list while iterating
it). -/
def removeItems (robots : List Robot) (items : List Item) : List Item :=
  robots.foldl (fun its r => removeLoop r.pos its) items

/-- `Warehouse._increase_item_waiting_time` (note: defined by the class but
never invoked by `step` or `reset`). -/
def increaseItemWaitingTime (items : List Item) : List Item :=
  items.map Item.increase_waiting_time

/-! ## Warehouse: the step transition (`Warehouse.step`) -/

/-- The mutable environment state of a `Warehouse` instance.  The two
counters `npIdx`/`pyIdx` are the positions reached in the numpy stream
(seeded at `npSeed`) and in the Python `random`-module stream. -/
structure WState where
  robots : List Robot
  items : List Item
  item_id : ℕ
  n_items_collected : ℕ
  episode_length : ℕ
  npSeed : ℕ
  npIdx : ℕ
  pyIdx : ℕ
deriving Repr

/-- `Warehouse.seed`: `np.random.seed(seed)` — resets the numpy stream only;
the Python `random` module stream is untouched. -/
def seedW (st : WState) (s : ℕ) : WState :=
  { st with npSeed := s, npIdx := 0 }

/-- `Warehouse._robots_act`: `zip(actions, self.robots)` pairs actions with
robots positionally, truncating to the shorter list; each paired robot
takes its action. -/
def robotsAct : List (Fin 4) → List Robot → List Robot
  | _, [] => []
  | [], robots => robots
  | a :: as, r :: rs => r.act a :: robotsAct as rs

/-- `Robot.select_random_action`: `random.randint(0, 3)` — one draw from the
Python `random`-module stream. -/
def selectRandomAction (pySeq : ℕ → Fin 4) (st : WState) : Fin 4 × WState :=
  (pySeq st.pyIdx, { st with pyIdx := st.pyIdx + 1 })

/-- `Warehouse.step`: act, compute reward, remove collected items, spawn new
items, advance the episode counter; returns the new state, the reward
(returned by the code as the pair `[reward, reward]`) and the `done` flag. -/
def step (P : Params) (npSeq : ℕ → ℕ → ℚ) (st : WState)
    (actions : List (Fin 4)) : WState × ℕ × Bool :=
  let robots' := robotsAct actions st.robots
  let reward := computeReward robots' st.items
  let items₁ := removeItems robots' st.items
  let a := addItems P npSeq st.npSeed items₁ st.item_id st.npIdx
  let st' : WState :=
    { st with
      robots := robots'
      items := a.items
      item_id := a.item_id
      npIdx := a.npIdx
      n_items_collected := st.n_items_collected + reward
      episode_length := st.episode_length + 1 }
  (st', reward, decide (P.max_episode_length ≤ st'.episode_length))

/-- Iterate `step` over a list of per-tick action lists. -/
def runSteps (P : Params) (npSeq : ℕ → ℕ → ℚ) :
    WState → List (List (Fin 4)) → WState
  | st, [] => st
  | st, acts :: rest => runSteps P npSeq (step P npSeq st acts).1 rest

/-! ## C6: aisle-row spawn candidates -/

lemma pyRangeStep_mem {stop step : ℕ} (hs : 0 < step) (x : ℕ) :
    x ∈ pyRangeStep stop step ↔ step ∣ x ∧ x < stop := by
  unfold pyRangeStep
  simp only [List.mem_map, List.mem_range]
  constructor
  · rintro ⟨k, hk, rfl⟩
    refine ⟨⟨k, by ring⟩, ?_⟩
    have h1 : k + 1 ≤ (stop + step - 1) / step := hk
    have h2 : (k + 1) * step ≤ stop + step - 1 :=
      (Nat.le_div_iff_mul_le hs).mp h1
    have h3 : (k + 1) * step = k * step + step := by ring
    omega
  · rintro ⟨⟨k, rfl⟩, hlt⟩
    refine ⟨k, ?_, by ring⟩
    have h2 : (k + 1) * step ≤ stop + step - 1 := by
      have h3 : (k + 1) * step = step * k + step := by ring
      omega
    have := (Nat.le_div_iff_mul_le hs).mpr h2
    omega

/-- C6 (amended). For every aisle row (a row that is not an exact multiple of
the shelf spacing), the spawn-candidate cells of that row are exactly the
cells whose column index is a multiple of the shelf spacing *below `n_rows`*
(the code bounds the aisle-column range by the row count, not the column
count; the two coincide only when `n_rows = n_columns`). -/
theorem addItemsCandidates_aisle (P : Params)
    (hs : 0 < P.distance_between_shelves) (row : ℕ) (hrow : row < P.n_rows)
    (hmod : row % P.distance_between_shelves ≠ 0) (c : ℕ) :
    (((row : ℤ), (c : ℤ)) ∈ addItemsCandidates P ↔
      P.distance_between_shelves ∣ c ∧ c < P.n_rows) := by
  unfold addItemsCandidates
  simp only [List.mem_flatMap, List.mem_range]
  constructor
  · rintro ⟨r, hr, hmem⟩
    by_cases hb : r % P.distance_between_shelves = 0
    · rw [if_pos hb] at hmem
      obtain ⟨col, _, heq⟩ := List.mem_map.mp hmem
      have hr2 : r = row := by
        have h := congrArg Prod.fst heq
        simpa using h
      exact absurd (hr2 ▸ hb) hmod
    · rw [if_neg hb] at hmem
      obtain ⟨col, hcol, heq⟩ := List.mem_map.mp hmem
      have hc2 : col = c := by
        have h := congrArg Prod.snd heq
        simpa using h
      exact hc2 ▸ (pyRangeStep_mem hs col).mp hcol
  · rintro ⟨hdvd, hlt⟩
    refine ⟨row, hrow, ?_⟩
    rw [if_neg hmod]
    exact List.mem_map.mpr ⟨c, (pyRangeStep_mem hs c).mpr ⟨hdvd, hlt⟩, rfl⟩

/-- Witness for C6 (amended): in a 3-row, 5-column grid with shelf spacing 2,
the aisle row 1 has candidate columns exactly the multiples of 2 below 3. -/
theorem addItemsCandidates_aisle_witness :
    ((((1 : ℤ), (2 : ℤ)) ∈ addItemsCandidates ⟨3, 5, 2, 0, 10⟩ ↔
      2 ∣ 2 ∧ 2 < 3)) :=
  addItemsCandidates_aisle ⟨3, 5, 2, 0, 10⟩ (by decide) 1 (by decide)
    (by decide) 2

/-- Counterexample for C6 as stated: in a 3-row, 5-column grid with shelf
spacing 2, the cell `(1, 4)` lies in an aisle row, its column 4 is a multiple
of the spacing and is a column of the grid (4 < n_columns = 5), yet it is not
a spawn candidate, because the code ranges aisle columns over
`range(0, n_rows, spacing)`. -/
theorem addItemsCandidates_aisle_cex :
    let P : Params := ⟨3, 5, 2, 0, 10⟩
    (1 % P.distance_between_shelves ≠ 0) ∧
    (P.distance_between_shelves ∣ 4) ∧ (4 < P.n_columns) ∧
    (((1 : ℤ), (4 : ℤ)) ∉ addItemsCandidates P) := by
  decide

/-! ## C2: waiting-time increments -/

/-- C2 (code evaluation at the failing input). A concrete step in which the
single item survives uncollected: the robot at `(1,1)` moves UP to `(0,1)`,
away from the item at `(0,0)`; no spawn occurs (spawn probability 0).  After
`Warehouse.step` the surviving item's `waiting_time` is still 0 — `step`
never calls `_increase_item_waiting_time` — whereas the claim requires it to
become 1 (as `increaseItemWaitingTime` would make it). -/
theorem step_leaves_waiting_time_unchanged :
    let P : Params := ⟨3, 3, 2, 0, 10⟩
    let st : WState :=
      ⟨[⟨0, (1, 1), ⟨0, 0, 2, 2⟩⟩], [⟨0, (0, 0), 0⟩], 1, 0, 0, 0, 0, 0⟩
    (step P (fun _ _ => 1) st [0]).1.items = [⟨0, (0, 0), 0⟩] ∧
    increaseItemWaitingTime [⟨0, (0, 0), 0⟩] = [⟨0, (0, 0), 1⟩] := by
  decide

/-! ## C1: reward / removal consistency -/

/-- The collision test of `_compute_reward` / `_remove_items`:
`robot_pos[0] == item_pos[0] and robot_pos[1] == item_pos[1]`. -/
def hitB (rpos : Pos) (it : Item) : Bool :=
  decide (rpos.1 = it.position.1 ∧ rpos.2 = it.position.2)

/-- An item coincides with the position of some robot in the list. -/
def collidesB (robots : List Robot) (it : Item) : Bool :=
  robots.any fun r => hitB r.pos it

/-- Items with pairwise-distinct positions match a fixed position at most
once. -/
lemma countP_hitB_le_one {items : List Item}
    (hp : items.Pairwise fun a b => a.position ≠ b.position) (rpos : Pos) :
    items.countP (hitB rpos) ≤ 1 := by
  induction items with
  | nil => simp
  | cons a l ih =>
    rw [List.countP_cons]
    rcases List.pairwise_cons.mp hp with ⟨ha, hl⟩
    by_cases hhit : hitB rpos a = true
    · have hz : l.countP (hitB rpos) = 0 := by
        rw [List.countP_eq_zero]
        intro b hb
        have hab := ha b hb
        simp only [hitB, decide_eq_true_eq] at hhit ⊢
        intro hb2
        exact hab (Prod.ext (hhit.1.symm.trans hb2.1) (hhit.2.symm.trans hb2.2))
      simp [hhit, hz]
    · simp only [hhit, if_false]
      simpa using ih hl

lemma removeLoopAux_eq_filter (rpos : Pos) :
    ∀ (fuel i : ℕ) (items : List Item), items.length ≤ i + fuel →
      (items.drop i).countP (hitB rpos) ≤ 1 →
      removeLoopAux rpos fuel i items =
        items.take i ++ (items.drop i).filter fun it => !hitB rpos it := by
  intro fuel
  induction fuel with
  | zero =>
    intro i items hlen _
    have hd : items.drop i = [] := List.drop_eq_nil_of_le (by omega)
    rw [removeLoopAux, hd]
    simp [List.take_of_length_le (show items.length ≤ i by omega)]
  | succ fuel ih =>
    intro i items hlen hcnt
    rw [removeLoopAux]
    by_cases h : i < items.length
    · rw [dif_pos h]
      show (if rpos.1 = items[i].position.1 ∧ rpos.2 = items[i].position.2 then
          removeLoopAux rpos fuel (i + 1) (items.eraseIdx i)
        else removeLoopAux rpos fuel (i + 1) items) =
        items.take i ++ (items.drop i).filter fun it => !hitB rpos it
      have hdrop : items.drop i = items[i] :: items.drop (i + 1) :=
        List.drop_eq_getElem_cons h
      have hti : (items.take i).length = i := by
        rw [List.length_take]; omega
      by_cases hhit : rpos.1 = items[i].position.1 ∧
          rpos.2 = items[i].position.2
      · rw [if_pos hhit]
        have hhitB : hitB rpos items[i] = true := by
          simp [hitB, hhit]
        have hrest : (items.drop (i + 1)).countP (hitB rpos) = 0 := by
          rw [hdrop, List.countP_cons, hhitB, if_pos rfl] at hcnt
          omega
        have herase : items.eraseIdx i = items.take i ++ items.drop (i + 1) :=
          List.eraseIdx_eq_take_drop_succ items i
        have hlen2 : (items.eraseIdx i).length ≤ (i + 1) + fuel := by
          rw [List.length_eraseIdx]
          simp only [h, if_true]
          omega
        have hdrop2 : (items.eraseIdx i).drop (i + 1) = items.drop (i + 2) := by
          rw [herase]
          calc (items.take i ++ items.drop (i + 1)).drop (i + 1)
              = (items.take i ++ items.drop (i + 1)).drop
                  ((items.take i).length + 1) := by rw [hti]
            _ = (items.drop (i + 1)).drop 1 := List.drop_append 1
            _ = items.drop (i + 2) := List.drop_drop ..
        have hcnt2 : ((items.eraseIdx i).drop (i + 1)).countP (hitB rpos) ≤ 1 := by
          rw [hdrop2]
          have hsub : items.drop (i + 2) = (items.drop (i + 1)).drop 1 :=
            (List.drop_drop 1 (i + 1) items).symm
          rw [hsub]
          calc ((items.drop (i + 1)).drop 1).countP (hitB rpos)
              ≤ (items.drop (i + 1)).countP (hitB rpos) :=
                List.Sublist.countP_le _ (List.drop_sublist _ _)
            _ ≤ 1 := by omega
        rw [ih (i + 1) (items.eraseIdx i) hlen2 hcnt2]
        have hrest_filter :
            (items.drop (i + 2)).filter (fun it => !hitB rpos it) =
              items.drop (i + 2) := by
          rw [List.filter_eq_self]
          intro a ha
          have hmem : a ∈ items.drop (i + 1) := by
            have hsub : items.drop (i + 2) = (items.drop (i + 1)).drop 1 :=
              (List.drop_drop 1 (i + 1) items).symm
            rw [hsub] at ha
            exact List.drop_subset _ _ ha
          have := List.countP_eq_zero.mp hrest a hmem
          simpa using this
        have htake2 : (items.eraseIdx i).take (i + 1) =
            items.take i ++ (items.drop (i + 1)).take 1 := by
          rw [herase]
          calc (items.take i ++ items.drop (i + 1)).take (i + 1)
              = (items.take i ++ items.drop (i + 1)).take
                  ((items.take i).length + 1) := by rw [hti]
            _ = items.take i ++ (items.drop (i + 1)).take 1 :=
                List.take_append 1
        rw [htake2, hdrop2, hrest_filter]
        rw [hdrop, List.filter_cons_of_neg (by simp [hhitB])]
        have hfilter_rest :
            (items.drop (i + 1)).filter (fun it => !hitB rpos it) =
              items.drop (i + 1) := by
          rw [List.filter_eq_self]
          intro a ha
          have := List.countP_eq_zero.mp hrest a ha
          simpa using this
        rw [hfilter_rest, List.append_assoc]
        congr 1
        have hsub : items.drop (i + 2) = (items.drop (i + 1)).drop 1 :=
          (List.drop_drop 1 (i + 1) items).symm
        rw [hsub, List.take_append_drop]
      · rw [if_neg hhit]
        have hhitB : hitB rpos items[i] = false := by
          simp only [hitB, decide_eq_false_iff_not]
          exact hhit
        have hcnt2 : (items.drop (i + 1)).countP (hitB rpos) ≤ 1 := by
          rw [hdrop, List.countP_cons, hhitB] at hcnt
          simpa using hcnt
        rw [ih (i + 1) items (by omega) hcnt2]
        have htake : items.take (i + 1) = items.take i ++ [items[i]] := by
          rw [List.take_succ, List.getElem?_eq_getElem h]
          rfl
        rw [htake, hdrop, List.filter_cons_of_pos (by simp [hhitB]),
          List.append_assoc]
        rfl
    · rw [dif_neg h]
      have hd : items.drop i = [] := List.drop_eq_nil_of_le (by omega)
      rw [hd]
      simp [List.take_of_length_le (show items.length ≤ i by omega)]

/-- With pairwise-distinct item positions, one robot's scan removes exactly
the items it coincides with (the iterator-skip affects only non-matching
items). -/
lemma removeLoop_eq_filter (rpos : Pos) (items : List Item)
    (hp : items.Pairwise fun a b => a.position ≠ b.position) :
    removeLoop rpos items = items.filter fun it => !hitB rpos it := by
  have := removeLoopAux_eq_filter rpos (items.length + 1) 0 items (by omega)
    (by simpa using countP_hitB_le_one hp rpos)
  simpa [removeLoop] using this

/-- With pairwise-distinct item positions, `_remove_items` removes exactly
the items that coincide with some robot's position. -/
lemma removeItems_eq_filter (robots : List Robot) (items : List Item)
    (hp : items.Pairwise fun a b => a.position ≠ b.position) :
    removeItems robots items = items.filter fun it => !collidesB robots it := by
  induction robots generalizing items with
  | nil =>
    simp [removeItems, collidesB]
  | cons r rs ih =>
    have h1 : removeItems (r :: rs) items = removeItems rs (removeLoop r.pos items) := rfl
    rw [h1, removeLoop_eq_filter r.pos items hp,
      ih _ (hp.filter _), List.filter_filter]
    apply List.filter_congr
    intro it _
    simp [collidesB, List.any_cons, Bool.not_or, Bool.and_comm]

lemma foldl_hit_count (rpos : Pos) (items : List Item) :
    ∀ acc : ℕ, items.foldl (fun reward it =>
        if rpos.1 = it.position.1 ∧ rpos.2 = it.position.2 then reward + 1
        else reward) acc = acc + items.countP (hitB rpos) := by
  induction items with
  | nil => simp
  | cons a l ih =>
    intro acc
    rw [List.foldl_cons, List.countP_cons]
    by_cases hhit : rpos.1 = a.position.1 ∧ rpos.2 = a.position.2
    · rw [if_pos hhit, ih]
      have : hitB rpos a = true := by simp [hitB, hhit]
      rw [this, if_pos rfl]
      omega
    · rw [if_neg hhit, ih]
      have : hitB rpos a = false := by simpa [hitB] using hhit
      rw [this]
      simp

lemma computeReward_eq_sum (robots : List Robot) (items : List Item) :
    computeReward robots items =
      (robots.map fun r => items.countP (hitB r.pos)).sum := by
  unfold computeReward
  suffices h : ∀ acc : ℕ, robots.foldl (fun reward r =>
      items.foldl (fun reward it =>
        if r.pos.1 = it.position.1 ∧ r.pos.2 = it.position.2 then reward + 1
        else reward) reward) acc =
      acc + (robots.map fun r => items.countP (hitB r.pos)).sum by
    simpa using h 0
  induction robots with
  | nil => simp
  | cons r rs ih =>
    intro acc
    rw [List.foldl_cons, foldl_hit_count, ih, List.map_cons, List.sum_cons]
    omega

lemma countP_eq_sum_indicator {α : Type} (p : α → Bool) (l : List α) :
    l.countP p = (l.map fun a => if p a = true then 1 else 0).sum := by
  induction l with
  | nil => simp
  | cons a l ih =>
    rw [List.countP_cons, List.map_cons, List.sum_cons, ih]
    omega

lemma sum_map_add_nat {α : Type} (l : List α) (f g : α → ℕ) :
    (l.map fun a => f a + g a).sum = (l.map f).sum + (l.map g).sum := by
  induction l with
  | nil => simp
  | cons a l ih =>
    simp only [List.map_cons, List.sum_cons, ih]
    omega

lemma sum_countP_swap (robots : List Robot) (items : List Item) :
    (robots.map fun r => items.countP (hitB r.pos)).sum =
      (items.map fun it =>
        robots.countP fun r => hitB r.pos it).sum := by
  induction robots with
  | nil => simp [List.map_const', List.sum_replicate]
  | cons r rs ih =>
    rw [List.map_cons, List.sum_cons, ih, countP_eq_sum_indicator,
      ← sum_map_add_nat]
    apply congrArg
    apply List.map_congr_left
    intro it _
    rw [List.countP_cons, Nat.add_comm]

lemma countP_robots_indicator {robots : List Robot}
    (hro : robots.Pairwise fun a b => a.pos ≠ b.pos) (it : Item) :
    (robots.countP fun r => hitB r.pos it) =
      if collidesB robots it = true then 1 else 0 := by
  induction robots with
  | nil => simp [collidesB]
  | cons r rs ih =>
    rcases List.pairwise_cons.mp hro with ⟨ha, hrs⟩
    rw [List.countP_cons]
    by_cases hh : hitB r.pos it = true
    · have hz : (rs.countP fun r' => hitB r'.pos it) = 0 := by
        rw [List.countP_eq_zero]
        intro b hb
        simp only [hitB, decide_eq_true_eq] at hh ⊢
        intro hb2
        exact ha b hb
          (Prod.ext (hh.1.trans hb2.1.symm) (hh.2.trans hb2.2.symm))
      simp [collidesB, List.any_cons, hh, hz]
    · simp only [hh, if_false, Nat.add_zero]
      rw [ih hrs]
      simp [collidesB, List.any_cons, Bool.eq_false_iff.mpr hh]

/-- With pairwise-distinct robot positions, the reward of `_compute_reward`
counts exactly the items that coincide with some robot. -/
lemma computeReward_eq_countP (robots : List Robot) (items : List Item)
    (hro : robots.Pairwise fun a b => a.pos ≠ b.pos) :
    computeReward robots items = items.countP (collidesB robots) := by
  rw [computeReward_eq_sum, sum_countP_swap,
    List.map_congr_left fun it _ => countP_robots_indicator hro it,
    ← countP_eq_sum_indicator]

/-- C1 (amended). In a tick whose acted robots occupy pairwise-distinct
cells and whose live items occupy pairwise-distinct cells (the latter is the
spawn invariant), the reward returned by `step` equals exactly the number of
items removed in that same tick: the removal phase deletes precisely the
items coinciding with some robot (none survives), each contributing exactly
1 to the reward.  (Without the distinct-robots hypothesis this fails: two
robots sharing a boundary cell of their overlapping domains each count the
same item, see the counterexample.) -/
theorem step_reward_eq_removed (P : Params) (npSeq : ℕ → ℕ → ℚ) (st : WState)
    (actions : List (Fin 4))
    (hitems : st.items.Pairwise fun a b => a.position ≠ b.position)
    (hrobots : (robotsAct actions st.robots).Pairwise fun a b =>
      a.pos ≠ b.pos) :
    (step P npSeq st actions).2.1 =
      st.items.length -
        (removeItems (robotsAct actions st.robots) st.items).length ∧
    removeItems (robotsAct actions st.robots) st.items =
      st.items.filter
        (fun it => !collidesB (robotsAct actions st.robots) it) ∧
    (step P npSeq st actions).2.1 =
      st.items.countP (collidesB (robotsAct actions st.robots)) := by
  have hrw : (step P npSeq st actions).2.1 =
      computeReward (robotsAct actions st.robots) st.items := rfl
  have h2 := removeItems_eq_filter (robotsAct actions st.robots) st.items hitems
  have h3 := computeReward_eq_countP (robotsAct actions st.robots) st.items
    hrobots
  refine ⟨?_, h2, hrw.trans h3⟩
  rw [hrw, h3, h2]
  have hp := List.length_eq_length_filter_add (l := st.items)
    (collidesB (robotsAct actions st.robots))
  rw [List.countP_eq_length_filter]
  omega

/-- Witness for C1 (amended): one robot standing on the single item; reward
1, and the roster shrinks from 1 to 0. -/
theorem step_reward_eq_removed_witness :
    let st : WState :=
      ⟨[⟨0, (0, 0), ⟨0, 0, 0, 0⟩⟩], [⟨0, (0, 0), 0⟩], 1, 0, 0, 0, 0, 0⟩
    let P : Params := ⟨1, 1, 1, 0, 10⟩
    (step P (fun _ _ => 1) st []).2.1 =
      st.items.length -
        (removeItems (robotsAct [] st.robots) st.items).length ∧
    removeItems (robotsAct [] st.robots) st.items =
      st.items.filter (fun it => !collidesB (robotsAct [] st.robots) it) ∧
    (step P (fun _ _ => 1) st []).2.1 =
      st.items.countP (collidesB (robotsAct [] st.robots)) :=
  step_reward_eq_removed ⟨1, 1, 1, 0, 10⟩ (fun _ _ => 1)
    ⟨[⟨0, (0, 0), ⟨0, 0, 0, 0⟩⟩], [⟨0, (0, 0), 0⟩], 1, 0, 0, 0, 0, 0⟩ []
    (by decide) (by decide)

/-- Counterexample for C1 as stated: two robots at the shared boundary cell
`(1,2)` of their overlapping domains `[0,0,2,2]` and `[0,2,2,4]` (both
reachable from the initial placement in one step), with a single item at
`(1,2)`.  `step` returns reward 2, but only 1 item is removed in the tick:
an item coinciding with several robots contributes once per robot. -/
theorem step_reward_eq_removed_cex :
    let robots : List Robot :=
      [⟨0, (1, 2), ⟨0, 0, 2, 2⟩⟩, ⟨1, (1, 2), ⟨0, 2, 2, 4⟩⟩]
    let st : WState := ⟨robots, [⟨0, (1, 2), 0⟩], 1, 0, 0, 0, 0, 0⟩
    let P : Params := ⟨3, 5, 2, 0, 10⟩
    (step P (fun _ _ => 1) st []).2.1 = 2 ∧
    st.items.length -
      (removeItems (robotsAct [] st.robots) st.items).length = 1 ∧
    (step P (fun _ _ => 1) st []).2.1 ≠
      st.items.length -
        (removeItems (robotsAct [] st.robots) st.items).length := by
  decide

/-! ## C7: no duplicate items after the spawn phase -/

/-- Invariant threaded through an `_add_items` pass: positions are pairwise
distinct, `item_locs` is `None` only while the roster is empty, and when set
it equals the roster's positions. -/
def AddInv (s : AddState) : Prop :=
  (s.items.Pairwise fun a b => a.position ≠ b.position) ∧
  (s.itemLocs = none → s.items = []) ∧
  (∀ l, s.itemLocs = some l → l = s.items.map (·.position))

lemma addItemsVisit_inv (P : Params) (npSeq : ℕ → ℕ → ℚ) (seedv : ℕ)
    (s : AddState) (loc : Pos) (h : AddInv s) :
    AddInv (addItemsVisit P npSeq seedv s loc) := by
  obtain ⟨hpw, hnone, hsome⟩ := h
  unfold addItemsVisit
  by_cases hc : npSeq seedv s.npIdx < P.prob_item_appears ∧
      (match s.itemLocs with
        | none => true
        | some locs => decide (loc ∉ locs)) = true
  · rw [if_pos hc]
    have hfree : loc ∉ s.items.map (·.position) := by
      rcases hl : s.itemLocs with _ | locs
      · rw [hnone hl]
        simp
      · have := hsome locs hl
        have hdec := hc.2
        rw [hl] at hdec
        simp only [decide_eq_true_eq] at hdec
        rw [← this]
        exact hdec
    refine ⟨?_, by simp, ?_⟩
    · rw [List.pairwise_append]
      refine ⟨hpw, by simp, ?_⟩
      intro a ha b hb
      simp only [List.mem_singleton] at hb
      subst hb
      simp only []
      intro hab
      exact hfree (hab ▸ List.mem_map_of_mem (·.position) ha)
    · intro l hl
      simp only [Option.some.injEq] at hl
      exact hl.symm
  · rw [if_neg hc]
    exact ⟨hpw, hnone, hsome⟩

lemma foldl_addItemsVisit_inv (P : Params) (npSeq : ℕ → ℕ → ℚ) (seedv : ℕ)
    (cands : List Pos) :
    ∀ s : AddState, AddInv s →
      AddInv (cands.foldl (addItemsVisit P npSeq seedv) s) := by
  induction cands with
  | nil => intro s h; exact h
  | cons c cs ih =>
    intro s h
    exact ih _ (addItemsVisit_inv P npSeq seedv s c h)

/-- An `_add_items` pass preserves pairwise-distinct item positions: a
candidate cell already holding an item is skipped, and a spawn immediately
refreshes the occupied-cell list. -/
lemma addItems_pairwise (P : Params) (npSeq : ℕ → ℕ → ℚ) (seedv : ℕ)
    (items : List Item) (item_id npIdx : ℕ)
    (h : items.Pairwise fun a b => a.position ≠ b.position) :
    (addItems P npSeq seedv items item_id npIdx).items.Pairwise
      fun a b => a.position ≠ b.position := by
  refine (foldl_addItemsVisit_inv P npSeq seedv (addItemsCandidates P)
    ⟨items, item_id, npIdx, _⟩ ⟨h, ?_, ?_⟩).1
  · intro hl
    by_cases he : items.isEmpty
    · exact List.isEmpty_iff.mp he
    · rw [if_neg he] at hl
      cases hl
  · intro l hl
    by_cases he : items.isEmpty
    · rw [if_pos he] at hl
      cases hl
    · rw [if_neg he] at hl
      simp only [Option.some.injEq] at hl
      exact hl.symm

lemma removeLoopAux_sublist (rpos : Pos) :
    ∀ (fuel i : ℕ) (items : List Item),
      (removeLoopAux rpos fuel i items).Sublist items := by
  intro fuel
  induction fuel with
  | zero => intro i items; rw [removeLoopAux]
  | succ fuel ih =>
    intro i items
    rw [removeLoopAux]
    by_cases h : i < items.length
    · rw [dif_pos h]
      by_cases hhit : rpos.1 = (items.get ⟨i, h⟩).position.1 ∧
          rpos.2 = (items.get ⟨i, h⟩).position.2
      · rw [if_pos hhit]
        exact (ih (i + 1) _).trans (List.eraseIdx_sublist items i)
      · rw [if_neg hhit]
        exact ih (i + 1) items
    · rw [dif_neg h]

lemma removeItems_sublist (robots : List Robot) :
    ∀ items : List Item, (removeItems robots items).Sublist items := by
  induction robots with
  | nil => intro items; exact List.Sublist.refl items
  | cons r rs ih =>
    intro items
    exact (ih (removeLoop r.pos items)).trans
      (removeLoopAux_sublist r.pos _ 0 items)

/-- C7. No two live items occupy the same grid cell immediately after the
spawn phase: if the roster entering a tick has pairwise-distinct positions,
so does the roster `step` returns (removal then spawn), and the initial
spawn of `reset` (from the empty roster) also yields pairwise-distinct
positions. -/
theorem spawn_no_duplicate_items (P : Params) (npSeq : ℕ → ℕ → ℚ)
    (st : WState) (actions : List (Fin 4)) (seedv iid idx : ℕ)
    (hitems : st.items.Pairwise fun a b => a.position ≠ b.position) :
    ((step P npSeq st actions).1.items.Pairwise
      fun a b => a.position ≠ b.position) ∧
    ((addItems P npSeq seedv [] iid idx).items.Pairwise
      fun a b => a.position ≠ b.position) := by
  constructor
  · have h1 : (removeItems (robotsAct actions st.robots) st.items).Sublist
        st.items := removeItems_sublist _ st.items
    exact addItems_pairwise P npSeq st.npSeed _ st.item_id st.npIdx
      (List.Pairwise.sublist h1 hitems)
  · exact addItems_pairwise P npSeq seedv [] iid idx (by simp)

/-- Witness for C7: a concrete tick (two items on distinct cells, one robot)
and a concrete initial spawn with spawn probability 1 on a 3×3 grid. -/
theorem spawn_no_duplicate_items_witness :
    let P : Params := ⟨3, 3, 2, 1, 10⟩
    let st : WState :=
      ⟨[⟨0, (1, 1), ⟨0, 0, 2, 2⟩⟩], [⟨0, (0, 0), 0⟩, ⟨1, (0, 2), 0⟩],
        2, 0, 0, 0, 0, 0⟩
    ((step P (fun _ _ => 1 / 2) st [0]).1.items.Pairwise
      fun a b => a.position ≠ b.position) ∧
    ((addItems P (fun _ _ => 1 / 2) 0 [] 0 0).items.Pairwise
      fun a b => a.position ≠ b.position) :=
  spawn_no_duplicate_items ⟨3, 3, 2, 1, 10⟩ (fun _ _ => 1 / 2)
    ⟨[⟨0, (1, 1), ⟨0, 0, 2, 2⟩⟩], [⟨0, (0, 0), 0⟩, ⟨1, (0, 2), 0⟩],
      2, 0, 0, 0, 0, 0⟩ [0] 0 0 0 (by decide)

/-! ## C5: seeding and reproducibility -/

/-- Two environment states that agree on every field except the position in
the Python `random`-module stream (which `Warehouse.step` never reads). -/
def AgreeExceptPy (s t : WState) : Prop :=
  s.robots = t.robots ∧ s.items = t.items ∧ s.item_id = t.item_id ∧
  s.n_items_collected = t.n_items_collected ∧
  s.episode_length = t.episode_length ∧ s.npSeed = t.npSeed ∧
  s.npIdx = t.npIdx

lemma step_agreeExceptPy (P : Params) (npSeq : ℕ → ℕ → ℚ)
    (a : List (Fin 4)) {s t : WState} (h : AgreeExceptPy s t) :
    AgreeExceptPy (step P npSeq s a).1 (step P npSeq t a).1 ∧
      (step P npSeq s a).2 = (step P npSeq t a).2 := by
  cases s
  cases t
  simp only [AgreeExceptPy] at h
  obtain ⟨rfl, rfl, rfl, rfl, rfl, rfl, rfl⟩ := h
  exact ⟨⟨rfl, rfl, rfl, rfl, rfl, rfl, rfl⟩, rfl⟩

lemma runSteps_agreeExceptPy (P : Params) (npSeq : ℕ → ℕ → ℚ) :
    ∀ (acts : List (List (Fin 4))) (s t : WState), AgreeExceptPy s t →
      AgreeExceptPy (runSteps P npSeq s acts) (runSteps P npSeq t acts) := by
  intro acts
  induction acts with
  | nil => intro s t h; exact h
  | cons a rest ih =>
    intro s t h
    exact ih _ _ (step_agreeExceptPy P npSeq a h).1

/-- C5 (amended). `Warehouse.seed` resets only the numpy stream that feeds
the spawn-probability draws, so reseeding with the same seed and replaying
the same action sequence reproduces the episode's states exactly (robots,
items, counters) — regardless of where the Python `random`-module stream
stands.  The Python stream, used for the policies' fallback random actions,
is *not* reset by `seed` (its position is untouched), so fallback actions
are not reproduced. -/
theorem seed_reproducibility (P : Params) (npSeq : ℕ → ℕ → ℚ) (s : ℕ)
    (acts : List (List (Fin 4))) (st1 st2 : WState)
    (hro : st1.robots = st2.robots) (hit : st1.items = st2.items)
    (hid : st1.item_id = st2.item_id)
    (hn : st1.n_items_collected = st2.n_items_collected)
    (he : st1.episode_length = st2.episode_length) :
    (runSteps P npSeq (seedW st1 s) acts).items =
      (runSteps P npSeq (seedW st2 s) acts).items ∧
    (runSteps P npSeq (seedW st1 s) acts).robots =
      (runSteps P npSeq (seedW st2 s) acts).robots ∧
    (seedW st1 s).pyIdx = st1.pyIdx := by
  have h : AgreeExceptPy (seedW st1 s) (seedW st2 s) :=
    ⟨hro, hit, hid, hn, he, rfl, rfl⟩
  have hrun := runSteps_agreeExceptPy P npSeq acts _ _ h
  exact ⟨hrun.2.1, hrun.1, rfl⟩

/-- Witness for C5 (amended): two concrete states differing only in the
Python-stream position, reseeded with seed 7, run one identical tick. -/
theorem seed_reproducibility_witness :
    let st1 : WState := ⟨[⟨0, (1, 1), ⟨0, 0, 2, 2⟩⟩], [], 0, 0, 0, 0, 0, 0⟩
    let st2 : WState := ⟨[⟨0, (1, 1), ⟨0, 0, 2, 2⟩⟩], [], 0, 0, 0, 0, 0, 5⟩
    let P : Params := ⟨3, 3, 2, 0, 10⟩
    (runSteps P (fun _ _ => 1) (seedW st1 7) [[0]]).items =
      (runSteps P (fun _ _ => 1) (seedW st2 7) [[0]]).items ∧
    (runSteps P (fun _ _ => 1) (seedW st1 7) [[0]]).robots =
      (runSteps P (fun _ _ => 1) (seedW st2 7) [[0]]).robots ∧
    (seedW st1 7).pyIdx = st1.pyIdx :=
  seed_reproducibility ⟨3, 3, 2, 0, 10⟩ (fun _ _ => 1) 7 [[0]]
    ⟨[⟨0, (1, 1), ⟨0, 0, 2, 2⟩⟩], [], 0, 0, 0, 0, 0, 0⟩
    ⟨[⟨0, (1, 1), ⟨0, 0, 2, 2⟩⟩], [], 0, 0, 0, 0, 0, 5⟩
    rfl rfl rfl rfl rfl

/-- A concrete Python-stream semantics for the counterexample: the `k`-th
`random.randint(0, 3)` draw is `k mod 4`. -/
def pySeqMod : ℕ → Fin 4 := fun n => ⟨n % 4, Nat.mod_lt n (by decide)⟩

/-- Counterexample for C5 as stated: the fallback random choice does *not*
come from the stream `Warehouse.seed` resets.  Two runs reseeded with the
same seed and replaying the same actions have identical item spawns, yet
their first fallback `random.randint(0, 3)` draws differ, because the Python
`random`-module stream position (0 in the first run, 5 in the second) is not
reset by `seed`. -/
theorem seed_single_stream_cex :
    let st1 : WState := ⟨[⟨0, (1, 1), ⟨0, 0, 2, 2⟩⟩], [], 0, 0, 0, 0, 0, 0⟩
    let st2 : WState := ⟨[⟨0, (1, 1), ⟨0, 0, 2, 2⟩⟩], [], 0, 0, 0, 0, 0, 5⟩
    let P : Params := ⟨3, 3, 2, 0, 10⟩
    (runSteps P (fun _ _ => 1) (seedW st1 7) [[0]]).items =
      (runSteps P (fun _ _ => 1) (seedW st2 7) [[0]]).items ∧
    (selectRandomAction pySeqMod (seedW st1 7)).1 ≠
      (selectRandomAction pySeqMod (seedW st2 7)).1 := by
  decide

/-! ## C8: `select_naive_action2` (oldest-item policy as coded)

The all-pairs path table `self._path_dict` is produced by the external
library call `nx.all_pairs_dijkstra_path` on the lazily built domain graph;
it is modelled as an explicit parameter `pd : Pos → Pos → List Pos` mapping a
source and target (domain-relative) cell to the cached path. -/

/-- `Robot._action_mapping` followed by `.get(delta)`: the inverse
delta-to-action table, `None` on any delta that is not a legal unit step. -/
def actionMapping (delta : Pos) : Option (Fin 4) :=
  if delta = (-1, 0) then some 0
  else if delta = (1, 0) then some 1
  else if delta = (0, -1) then some 2
  else if delta = (0, 1) then some 3
  else none

/-- `Robot._get_first_action`: the action encoding the first edge
`path[1] - path[0]` of a path. -/
def getFirstAction (path : List Pos) : Option (Fin 4) :=
  match path with
  | p0 :: p1 :: _ => actionMapping (p1.1 - p0.1, p1.2 - p0.2)
  | _ => none

/-- The robot's domain-relative position
`(pos[0]-domain[0], pos[1]-domain[1])`. -/
def Robot.relPos (r : Robot) : Pos := (r.pos.1 - r.domain.r0, r.pos.2 - r.domain.c0)

/-- A global position translated to domain-relative coordinates. -/
def relItemPos (d : Domain) (p : Pos) : Pos := (p.1 - d.r0, p.2 - d.c0)

/-- `Robot._get_items_robot_region`: the items whose position lies within
the robot's domain (inclusive bounds), in roster order. -/
def getItemsRobotRegion (r : Robot) (items : List Item) : List Item :=
  items.filter fun it => decide (r.domain.contains it.position)

/-- The scanning loop of `_path_to_oldest_item`: track the index and value of
the strictly smallest `waiting_time` seen so far (`None` stands for the
initial `math.inf`, which every value beats). -/
def argminLoop : ℕ → Option (ℕ × ℕ) → List Item → Option (ℕ × ℕ)
  | _, best, [] => best
  | idx, best, it :: rest =>
    let best' := match best with
      | none => some (idx, it.waiting_time)
      | some (mi, mv) =>
        if it.waiting_time < mv then some (idx, it.waiting_time)
        else some (mi, mv)
    argminLoop (idx + 1) best' rest

/-- `Robot._path_to_oldest_item`: `None` when the filtered roster is empty
(`len(items) > 0` guard); otherwise the cached path from the robot's
domain-relative position to the minimum-waiting-time item's domain-relative
position. -/
def pathToOldestItem (pd : Pos → Pos → List Pos) (r : Robot)
    (items : List Item) : Option (List Pos) :=
  match argminLoop 0 none items with
  | none => none
  | some (mi, _) =>
    some (pd r.relPos
      (relItemPos r.domain ((items.getD mi ⟨0, (0, 0), 0⟩).position)))

/-- `Robot.select_naive_action2`: filter the roster to the robot's region,
head for the minimum-waiting-time item; fall back to a uniform random action
when there is no such item or the cached path has fewer than 2 nodes. -/
def selectNaiveAction2 (pd : Pos → Pos → List Pos) (r : Robot)
    (items : List Item) (pySeq : ℕ → Fin 4) (pyIdx : ℕ) : Option (Fin 4) :=
  let region := getItemsRobotRegion r items
  match pathToOldestItem pd r region with
  | none => some (pySeq pyIdx)
  | some path =>
    if path.length < 2 then some (pySeq pyIdx) else getFirstAction path

lemma argminLoop_invariant (items : List Item) :
    ∀ (l : List Item) (idx mi mv : ℕ) (hmi : mi < items.length),
      items.drop idx = l → mi < idx →
      mv = items[mi].waiting_time →
      (∀ j (hj : j < items.length), j < idx →
        mv ≤ items[j].waiting_time) →
      (∀ j (hj : j < items.length), j < mi →
        mv < items[j].waiting_time) →
      ∃ m, ∃ hm : m < items.length,
        argminLoop idx (some (mi, mv)) l =
          some (m, items[m].waiting_time) ∧
        (∀ j (hj : j < items.length),
          items[m].waiting_time ≤ items[j].waiting_time) ∧
        (∀ j (hj : j < items.length), j < m →
          items[m].waiting_time < items[j].waiting_time) := by
  intro l
  induction l with
  | nil =>
    intro idx mi mv hmi hdrop hlt hmv hall hbefore
    subst hmv
    have hlen : items.length ≤ idx := by
      by_contra hcon
      push_neg at hcon
      have := List.drop_eq_getElem_cons hcon
      rw [hdrop] at this
      cases this
    refine ⟨mi, hmi, by rw [argminLoop], ?_, hbefore⟩
    intro j hj
    exact hall j hj (by omega)
  | cons it rest ih =>
    intro idx mi mv hmi hdrop hlt hmv hall hbefore
    have hidx : idx < items.length := by
      by_contra hcon
      push_neg at hcon
      rw [List.drop_eq_nil_of_le hcon] at hdrop
      cases hdrop
    have hcons := List.drop_eq_getElem_cons hidx
    rw [hdrop] at hcons
    injection hcons with h1 h2
    by_cases hc : it.waiting_time < mv
    · have hred : argminLoop idx (some (mi, mv)) (it :: rest) =
          argminLoop (idx + 1) (some (idx, it.waiting_time)) rest := by
        rw [argminLoop]
        simp only [hc, if_pos]
      rw [hred]
      refine ih (idx + 1) idx it.waiting_time hidx h2.symm (by omega)
        (by rw [h1]) ?_ ?_
      · intro j hj hjlt
        rcases Nat.lt_succ_iff_lt_or_eq.mp hjlt with hjlt2 | rfl
        · have := hall j hj hjlt2
          omega
        · rw [h1]
      · intro j hj hjlt
        have := hall j hj (by omega)
        omega
    · have hred : argminLoop idx (some (mi, mv)) (it :: rest) =
          argminLoop (idx + 1) (some (mi, mv)) rest := by
        rw [argminLoop]
        simp only [hc, if_neg, ite_false]
      rw [hred]
      refine ih (idx + 1) mi mv hmi h2.symm (by omega) hmv ?_ hbefore
      intro j hj hjlt
      rcases Nat.lt_succ_iff_lt_or_eq.mp hjlt with hjlt2 | rfl
      · exact hall j hj hjlt2
      · rw [h1] at hc
        omega

/-- The `_path_to_oldest_item` scan returns the first index attaining the
minimum waiting time. -/
lemma argminLoop_spec (items : List Item) (hne : items ≠ []) :
    ∃ m, ∃ hm : m < items.length,
      argminLoop 0 none items = some (m, items[m].waiting_time) ∧
      (∀ j (hj : j < items.length),
        items[m].waiting_time ≤ items[j].waiting_time) ∧
      (∀ j (hj : j < items.length), j < m →
        items[m].waiting_time < items[j].waiting_time) := by
  cases items with
  | nil => exact absurd rfl hne
  | cons it rest =>
    have hred : argminLoop 0 none (it :: rest) =
        argminLoop 1 (some (0, it.waiting_time)) rest := by
      rw [argminLoop]
    rw [hred]
    refine argminLoop_invariant (it :: rest) rest 1 0 it.waiting_time
      (by simp) rfl (by omega) rfl ?_ (by omega)
    intro j hj hjlt
    interval_cases j
    rfl

lemma argminLoop_ne_none :
    ∀ (l : List Item) (idx : ℕ) (b : ℕ × ℕ),
      argminLoop idx (some b) l ≠ none := by
  intro l
  induction l with
  | nil =>
    intro idx b h
    simp [argminLoop] at h
  | cons it rest ih =>
    intro idx b h
    rw [argminLoop] at h
    cases b with
    | mk mi mv =>
      dsimp only at h
      by_cases hc : it.waiting_time < mv
      · rw [if_pos hc] at h
        exact ih (idx + 1) _ h
      · rw [if_neg hc] at h
        exact ih (idx + 1) _ h

/-- C8. `select_naive_action2` filters the roster to the items inside the
robot's domain; when that region is non-empty it targets the item with the
minimum `waiting_time` (ties broken by first occurrence in roster order: the
scan updates only on strictly smaller values) and returns the first action of
the cached path from the robot's domain-relative position to that item's
domain-relative position; when the region is empty, or the cached path has
fewer than 2 nodes, it returns a uniform random draw instead. -/
theorem selectNaiveAction2_spec (pd : Pos → Pos → List Pos) (r : Robot)
    (items : List Item) (pySeq : ℕ → Fin 4) (pyIdx : ℕ) :
    (getItemsRobotRegion r items = [] →
      selectNaiveAction2 pd r items pySeq pyIdx = some (pySeq pyIdx)) ∧
    (getItemsRobotRegion r items ≠ [] →
      ∃ m, ∃ hm : m < (getItemsRobotRegion r items).length,
        ((getItemsRobotRegion r items)[m] ∈ items ∧
         r.domain.contains (getItemsRobotRegion r items)[m].position) ∧
        (∀ j (hj : j < (getItemsRobotRegion r items).length),
          (getItemsRobotRegion r items)[m].waiting_time ≤
            (getItemsRobotRegion r items)[j].waiting_time) ∧
        (∀ j (hj : j < (getItemsRobotRegion r items).length), j < m →
          (getItemsRobotRegion r items)[m].waiting_time <
            (getItemsRobotRegion r items)[j].waiting_time) ∧
        (2 ≤ (pd r.relPos (relItemPos r.domain
            ((getItemsRobotRegion r items)[m].position))).length →
          selectNaiveAction2 pd r items pySeq pyIdx =
            getFirstAction (pd r.relPos (relItemPos r.domain
              ((getItemsRobotRegion r items)[m].position)))) ∧
        ((pd r.relPos (relItemPos r.domain
            ((getItemsRobotRegion r items)[m].position))).length < 2 →
          selectNaiveAction2 pd r items pySeq pyIdx = some (pySeq pyIdx))) := by
  constructor
  · intro h
    show (match pathToOldestItem pd r (getItemsRobotRegion r items) with
      | none => some (pySeq pyIdx)
      | some path =>
        if path.length < 2 then some (pySeq pyIdx)
        else getFirstAction path) = some (pySeq pyIdx)
    rw [h]
    rfl
  · intro hne
    obtain ⟨m, hm, heq, hmin, hfirst⟩ := argminLoop_spec _ hne
    have hmem : (getItemsRobotRegion r items)[m] ∈ getItemsRobotRegion r items :=
      List.getElem_mem hm
    have hpath : pathToOldestItem pd r (getItemsRobotRegion r items) =
        some (pd r.relPos (relItemPos r.domain
          ((getItemsRobotRegion r items)[m].position))) := by
      unfold pathToOldestItem
      rw [heq]
      dsimp only
      rw [List.getD_eq_getElem _ _ hm]
    have hsel : selectNaiveAction2 pd r items pySeq pyIdx =
        (if (pd r.relPos (relItemPos r.domain
            ((getItemsRobotRegion r items)[m].position))).length < 2 then
          some (pySeq pyIdx)
        else getFirstAction (pd r.relPos (relItemPos r.domain
          ((getItemsRobotRegion r items)[m].position)))) := by
      show (match pathToOldestItem pd r (getItemsRobotRegion r items) with
        | none => some (pySeq pyIdx)
        | some path =>
          if path.length < 2 then some (pySeq pyIdx)
          else getFirstAction path) = _
      rw [hpath]
    refine ⟨m, hm,
      ⟨List.mem_of_mem_filter hmem, ?_⟩, hmin, hfirst, ?_, ?_⟩
    · have := (List.mem_filter.mp hmem).2
      simpa using this
    · intro hlen
      rw [hsel, if_neg (by omega)]
    · intro hlen
      rw [hsel, if_pos hlen]

/-- Witness for C8: a robot whose domain contains no roster item falls back
to the Python-stream random draw. -/
theorem selectNaiveAction2_spec_witness :
    selectNaiveAction2 (fun _ _ => []) ⟨0, (0, 0), ⟨0, 0, 1, 1⟩⟩
      [⟨0, (5, 5), 0⟩] (fun _ => 2) 0 = some 2 :=
  (selectNaiveAction2_spec (fun _ _ => []) ⟨0, (0, 0), ⟨0, 0, 1, 1⟩⟩
    [⟨0, (5, 5), 0⟩] (fun _ => 2) 0).1 (by decide)

/-! ## C9: the domain grid graph and shortest paths

`Robot._create_graph` adds, for every cell of the observation array, edges to
its four `_neighbors` — including neighbours one step outside the array
(numpy indices `-1` or `height`/`width`), which become pendant phantom
nodes.  `gridEdge` is the resulting undirected adjacency: an edge exists
exactly when one endpoint is an in-array cell and the other is a unit step
away from it.  `nx.all_pairs_dijkstra_path` is an external library call; it
is modelled by its contract (hypothesis `hpd` below): the cached table
assigns to each pair of nodes a path in the graph of minimal length. -/

/-- The four neighbour offsets of `_neighbors`, in source order. -/
def dirs : List Pos := [(0, 1), (0, -1), (1, 0), (-1, 0)]

/-- A cell of the observation array proper (row in `[0, h)`, column in
`[0, w)`). -/
def InGrid (h w : ℕ) (p : Pos) : Prop :=
  0 ≤ p.1 ∧ p.1 < (h : ℤ) ∧ 0 ≤ p.2 ∧ p.2 < (w : ℤ)

instance (h w : ℕ) (p : Pos) : Decidable (InGrid h w p) := by
  unfold InGrid; infer_instance

/-- The undirected adjacency of the graph built by `_create_graph` over an
`h × w` observation array. -/
def gridEdge (h w : ℕ) (u v : Pos) : Prop :=
  (InGrid h w u ∧ ∃ δ ∈ dirs, v = (u.1 + δ.1, u.2 + δ.2)) ∨
  (InGrid h w v ∧ ∃ δ ∈ dirs, u = (v.1 + δ.1, v.2 + δ.2))

instance (h w : ℕ) (u v : Pos) : Decidable (gridEdge h w u v) := by
  unfold gridEdge; infer_instance

/-- A path of the graph from `u` to `v`: non-empty, endpoints as given,
consecutive nodes adjacent. -/
def ValidPath (h w : ℕ) (u v : Pos) (p : List Pos) : Prop :=
  p.head? = some u ∧ p.getLast? = some v ∧ p.Chain' (gridEdge h w)

/-- Manhattan distance between two cells. -/
def mdist (u v : Pos) : ℕ := (u.1 - v.1).natAbs + (u.2 - v.2).natAbs

lemma gridEdge_unit {h w : ℕ} {u v : Pos} (he : gridEdge h w u v) :
    mdist u v = 1 := by
  unfold mdist
  rcases he with ⟨_, δ, hδ, rfl⟩ | ⟨_, δ, hδ, rfl⟩ <;>
    (simp only [dirs, List.mem_cons, List.mem_singleton,
      List.not_mem_nil, or_false] at hδ;
     rcases hδ with rfl | rfl | rfl | rfl) <;> simp

lemma mdist_le_of_edge {h w : ℕ} {u v : Pos} (t : Pos)
    (he : gridEdge h w u v) : mdist u t ≤ mdist v t + 1 := by
  have h1 := gridEdge_unit he
  unfold mdist at *
  omega

/-- Any path of the graph from `u` to `t` has at least `mdist u t + 1`
nodes. -/
lemma validPath_length_lower (h w : ℕ) (t : Pos) :
    ∀ (p : List Pos) (u : Pos), p.head? = some u → p.getLast? = some t →
      p.Chain' (gridEdge h w) → mdist u t + 1 ≤ p.length := by
  intro p
  induction p with
  | nil => intro u h1 _ _; cases h1
  | cons a rest ih =>
    intro u h1 h2 h3
    injection h1 with h1
    subst h1
    cases rest with
    | nil =>
      injection h2 with h2
      subst h2
      simp [mdist]
    | cons b rest2 =>
      rw [List.getLast?_cons_cons] at h2
      rw [List.chain'_cons] at h3
      have hb := ih b rfl h2 h3.2
      have ha := mdist_le_of_edge t h3.1
      simp only [List.length_cons] at *
      omega

/-- A concrete monotone path: adjust the row towards the target, then the
column. -/
def mkPath (u v : Pos) : List Pos :=
  if u.1 < v.1 then u :: mkPath (u.1 + 1, u.2) v
  else if v.1 < u.1 then u :: mkPath (u.1 - 1, u.2) v
  else if u.2 < v.2 then u :: mkPath (u.1, u.2 + 1) v
  else if v.2 < u.2 then u :: mkPath (u.1, u.2 - 1) v
  else [u]
termination_by mdist u v
decreasing_by
  all_goals (unfold mdist; simp only []; omega)

lemma mkPath_length : ∀ u v : Pos, (mkPath u v).length = mdist u v + 1 := by
  intro u v
  induction u, v using mkPath.induct with
  | case1 u v h ih =>
    rw [mkPath, if_pos h]
    simp only [List.length_cons, ih, mdist]
    simp
    omega
  | case2 u v h1 h2 ih =>
    rw [mkPath, if_neg h1, if_pos h2]
    simp only [List.length_cons, ih, mdist]
    simp
    omega
  | case3 u v h1 h2 h3 ih =>
    rw [mkPath, if_neg h1, if_neg h2, if_pos h3]
    simp only [List.length_cons, ih, mdist]
    simp
    omega
  | case4 u v h1 h2 h3 h4 ih =>
    rw [mkPath, if_neg h1, if_neg h2, if_neg h3, if_pos h4]
    simp only [List.length_cons, ih, mdist]
    simp
    omega
  | case5 u v h1 h2 h3 h4 =>
    rw [mkPath, if_neg h1, if_neg h2, if_neg h3, if_neg h4]
    simp [mdist]
    omega

lemma mkPath_head (u v : Pos) : (mkPath u v).head? = some u := by
  rw [mkPath]
  split
  · rfl
  split
  · rfl
  split
  · rfl
  split
  · rfl
  · rfl

lemma mkPath_ne_nil (u v : Pos) : mkPath u v ≠ [] := by
  intro h
  have := mkPath_head u v
  rw [h] at this
  cases this

lemma getLast?_cons_of_ne_nil {α : Type} (a : α) {l : List α} (h : l ≠ []) :
    (a :: l).getLast? = l.getLast? := by
  cases l with
  | nil => exact absurd rfl h
  | cons b l2 => exact List.getLast?_cons_cons

lemma mkPath_last : ∀ u v : Pos, (mkPath u v).getLast? = some v := by
  intro u v
  induction u, v using mkPath.induct with
  | case1 u v h ih =>
    rw [mkPath, if_pos h, getLast?_cons_of_ne_nil _ (mkPath_ne_nil _ _), ih]
  | case2 u v h1 h2 ih =>
    rw [mkPath, if_neg h1, if_pos h2,
      getLast?_cons_of_ne_nil _ (mkPath_ne_nil _ _), ih]
  | case3 u v h1 h2 h3 ih =>
    rw [mkPath, if_neg h1, if_neg h2, if_pos h3,
      getLast?_cons_of_ne_nil _ (mkPath_ne_nil _ _), ih]
  | case4 u v h1 h2 h3 h4 ih =>
    rw [mkPath, if_neg h1, if_neg h2, if_neg h3, if_pos h4,
      getLast?_cons_of_ne_nil _ (mkPath_ne_nil _ _), ih]
  | case5 u v h1 h2 h3 h4 =>
    rw [mkPath, if_neg h1, if_neg h2, if_neg h3, if_neg h4]
    have h5 : u.1 = v.1 := by omega
    have h6 : u.2 = v.2 := by omega
    rw [show u = v from Prod.ext h5 h6]
    rfl

lemma mkPath_chain (h w : ℕ) :
    ∀ u v : Pos, InGrid h w u → InGrid h w v →
      (mkPath u v).Chain' (gridEdge h w) := by
  intro u v
  induction u, v using mkPath.induct with
  | case1 u v hlt ih =>
    intro hu hv
    rw [mkPath, if_pos hlt, List.chain'_cons']
    have hu2 : InGrid h w (u.1 + 1, u.2) := by
      obtain ⟨a1, a2, a3, a4⟩ := hu
      obtain ⟨b1, b2, b3, b4⟩ := hv
      exact ⟨by omega, by simp only []; omega, a3, a4⟩
    refine ⟨?_, ih hu2 hv⟩
    intro y hy
    rw [mkPath_head] at hy
    injection hy with hy
    subst hy
    exact Or.inl ⟨hu, ((1 : ℤ), (0 : ℤ)), by simp [dirs], by simp⟩
  | case2 u v h1 hlt ih =>
    intro hu hv
    rw [mkPath, if_neg h1, if_pos hlt, List.chain'_cons']
    have hu2 : InGrid h w (u.1 - 1, u.2) := by
      obtain ⟨a1, a2, a3, a4⟩ := hu
      obtain ⟨b1, b2, b3, b4⟩ := hv
      exact ⟨by simp only []; omega, by simp only []; omega, a3, a4⟩
    refine ⟨?_, ih hu2 hv⟩
    intro y hy
    rw [mkPath_head] at hy
    injection hy with hy
    subst hy
    exact Or.inl ⟨hu, ((-1 : ℤ), (0 : ℤ)), by simp [dirs], by simp; omega⟩
  | case3 u v h1 h2 hlt ih =>
    intro hu hv
    rw [mkPath, if_neg h1, if_neg h2, if_pos hlt, List.chain'_cons']
    have hu2 : InGrid h w (u.1, u.2 + 1) := by
      obtain ⟨a1, a2, a3, a4⟩ := hu
      obtain ⟨b1, b2, b3, b4⟩ := hv
      exact ⟨a1, a2, by simp only []; omega, by simp only []; omega⟩
    refine ⟨?_, ih hu2 hv⟩
    intro y hy
    rw [mkPath_head] at hy
    injection hy with hy
    subst hy
    exact Or.inl ⟨hu, ((0 : ℤ), (1 : ℤ)), by simp [dirs], by simp⟩
  | case4 u v h1 h2 h3 hlt ih =>
    intro hu hv
    rw [mkPath, if_neg h1, if_neg h2, if_neg h3, if_pos hlt,
      List.chain'_cons']
    have hu2 : InGrid h w (u.1, u.2 - 1) := by
      obtain ⟨a1, a2, a3, a4⟩ := hu
      obtain ⟨b1, b2, b3, b4⟩ := hv
      exact ⟨a1, a2, by simp only []; omega, by simp only []; omega⟩
    refine ⟨?_, ih hu2 hv⟩
    intro y hy
    rw [mkPath_head] at hy
    injection hy with hy
    subst hy
    exact Or.inl ⟨hu, ((0 : ℤ), (-1 : ℤ)), by simp [dirs], by simp; omega⟩
  | case5 u v h1 h2 h3 h4 =>
    intro _ _
    rw [mkPath, if_neg h1, if_neg h2, if_neg h3, if_neg h4]
    simp

/-- The monotone path is a path of the graph between any two in-array
cells. -/
lemma mkPath_valid (h w : ℕ) {u v : Pos} (hu : InGrid h w u)
    (hv : InGrid h w v) : ValidPath h w u v (mkPath u v) :=
  ⟨mkPath_head u v, mkPath_last u v, mkPath_chain h w u v hu hv⟩

/-! ## C9: `select_naive_action` (closest-item policy) -/

/-- The body of the `np.ndenumerate` scan of `_path_to_closest_item`: on an
item-marked cell, look up the cached path, and keep it if its edge count
(`len(path) - 1`) is strictly smaller than the minimum seen so far. -/
def closestScanStep (pd : Pos → Pos → List Pos) (rpos : Pos)
    (obs : List (List ℤ)) (acc : ℕ × Option (List Pos)) (ij : ℕ × ℕ) :
    ℕ × Option (List Pos) :=
  if (obs.getD ij.1 []).getD ij.2 0 = 1 then
    if (pd rpos ((ij.1 : ℤ), (ij.2 : ℤ))).length - 1 < acc.1 then
      ((pd rpos ((ij.1 : ℤ), (ij.2 : ℤ))).length - 1,
        some (pd rpos ((ij.1 : ℤ), (ij.2 : ℤ))))
    else acc
  else acc

/-- `Robot._path_to_closest_item`: scan all cells of the observation array
in row-major (`np.ndenumerate`) order, starting from the sentinel minimum
distance `len(obs[:,0]) + len(obs[0,:])` (row count plus column count) and
no path. -/
def pathToClosestItem (pd : Pos → Pos → List Pos) (rpos : Pos)
    (obs : List (List ℤ)) : Option (List Pos) :=
  (((List.range obs.length).flatMap fun i : ℕ =>
      (List.range (obs.headD []).length).map fun j : ℕ => (i, j)).foldl
    (closestScanStep pd rpos obs)
    (obs.length + (obs.headD []).length, none)).2

/-- `Robot.select_naive_action`: one step towards the closest item, falling
back to a uniform random draw when there is no item-marked cell or the path
has fewer than 2 nodes. -/
def selectNaiveAction (pd : Pos → Pos → List Pos) (rpos : Pos)
    (obs : List (List ℤ)) (pySeq : ℕ → Fin 4) (pyIdx : ℕ) :
    Option (Fin 4) :=
  match pathToClosestItem pd rpos obs with
  | none => some (pySeq pyIdx)
  | some path =>
    if path.length < 2 then some (pySeq pyIdx) else getFirstAction path

lemma closestScan_after (pd : Pos → Pos → List Pos) (rpos : Pos)
    (obs : List (List ℤ)) (tn : ℕ × ℕ) :
    ∀ l : List (ℕ × ℕ),
      (∀ ij ∈ l, (obs.getD ij.1 []).getD ij.2 0 = 1 → ij = tn) →
      l.foldl (closestScanStep pd rpos obs)
        ((pd rpos ((tn.1 : ℤ), (tn.2 : ℤ))).length - 1,
          some (pd rpos ((tn.1 : ℤ), (tn.2 : ℤ)))) =
        ((pd rpos ((tn.1 : ℤ), (tn.2 : ℤ))).length - 1,
          some (pd rpos ((tn.1 : ℤ), (tn.2 : ℤ)))) := by
  intro l
  induction l with
  | nil => intro _; rfl
  | cons ij rest ih =>
    intro hval
    rw [List.foldl_cons]
    have hstep : closestScanStep pd rpos obs
        ((pd rpos ((tn.1 : ℤ), (tn.2 : ℤ))).length - 1,
          some (pd rpos ((tn.1 : ℤ), (tn.2 : ℤ)))) ij =
        ((pd rpos ((tn.1 : ℤ), (tn.2 : ℤ))).length - 1,
          some (pd rpos ((tn.1 : ℤ), (tn.2 : ℤ)))) := by
      unfold closestScanStep
      by_cases hv : (obs.getD ij.1 []).getD ij.2 0 = 1
      · have : ij = tn := hval ij (List.mem_cons_self ij rest) hv
        subst this
        rw [if_pos hv, if_neg (by omega)]
      · rw [if_neg hv]
    rw [hstep]
    exact ih fun a ha => hval a (List.mem_cons_of_mem ij ha)

lemma closestScan_hits (pd : Pos → Pos → List Pos) (rpos : Pos)
    (obs : List (List ℤ)) (tn : ℕ × ℕ) :
    ∀ (l : List (ℕ × ℕ)) (m : ℕ),
      (pd rpos ((tn.1 : ℤ), (tn.2 : ℤ))).length - 1 < m →
      (∀ ij ∈ l, (obs.getD ij.1 []).getD ij.2 0 = 1 → ij = tn) →
      (obs.getD tn.1 []).getD tn.2 0 = 1 →
      tn ∈ l →
      l.foldl (closestScanStep pd rpos obs) (m, none) =
        ((pd rpos ((tn.1 : ℤ), (tn.2 : ℤ))).length - 1,
          some (pd rpos ((tn.1 : ℤ), (tn.2 : ℤ)))) := by
  intro l
  induction l with
  | nil =>
    intro m _ _ _ hmem
    cases hmem
  | cons ij rest ih =>
    intro m hm hval htn hmem
    rw [List.foldl_cons]
    by_cases hv : (obs.getD ij.1 []).getD ij.2 0 = 1
    · have hij : ij = tn := hval ij (List.mem_cons_self ij rest) hv
      subst hij
      have hstep : closestScanStep pd rpos obs (m, none) ij =
          ((pd rpos ((ij.1 : ℤ), (ij.2 : ℤ))).length - 1,
            some (pd rpos ((ij.1 : ℤ), (ij.2 : ℤ)))) := by
        unfold closestScanStep
        rw [if_pos hv, if_pos hm]
      rw [hstep]
      exact closestScan_after pd rpos obs ij rest
        fun a ha => hval a (List.mem_cons_of_mem ij ha)
    · have hij : ij ≠ tn := by
        intro heq
        exact hv (heq ▸ htn)
      have hstep : closestScanStep pd rpos obs (m, none) ij = (m, none) := by
        unfold closestScanStep
        rw [if_neg hv]
      rw [hstep]
      refine ih m hm (fun a ha => hval a (List.mem_cons_of_mem ij ha)) htn ?_
      rcases List.mem_cons.mp hmem with heq | hrest
      · exact absurd heq.symm hij
      · exact hrest

lemma headD_map_range {α : Type} (n : ℕ) (g : ℕ → α) (dflt : α)
    (h : 0 < n) : ((List.range n).map g).headD dflt = g 0 := by
  cases n with
  | zero => omega
  | succ m =>
    rw [List.range_succ_eq_map]
    rfl

lemma imageObserve_length (items : List Item) (d : Domain) (rpos : Pos) :
    (imageObserve items d rpos).length = d.height := by
  simp [imageObserve, Domain.rowList]

lemma imageObserve_head_length (items : List Item) (d : Domain) (rpos : Pos)
    (h : 0 < d.height) :
    ((imageObserve items d rpos).headD []).length = d.width := by
  unfold imageObserve Domain.rowList
  rw [List.map_map, headD_map_range _ _ _ h, Function.comp_apply]
  simp [Domain.colList]

/-- The `(i, j)` entry of the image observation is the item bit of the
corresponding absolute cell minus the robot's one-hot marker. -/
lemma imageObserve_entry (items : List Item) (d : Domain) (rpos : Pos)
    {i j : ℕ} (hi : i < d.height) (hj : j < d.width) :
    ((imageObserve items d rpos).getD i []).getD j 0 =
      itemBit items (d.r0 + (i : ℤ), d.c0 + (j : ℤ)) -
        (if (d.r0 + (i : ℤ), d.c0 + (j : ℤ)) = rpos then 1 else 0) := by
  unfold imageObserve Domain.rowList Domain.colList
  rw [List.map_map, getD_map_range _ _ _ hi, Function.comp_apply,
    List.map_map, getD_map_range _ _ _ hj, Function.comp_apply]

lemma mem_cells {R C : ℕ} (ij : ℕ × ℕ) :
    (ij ∈ (List.range R).flatMap fun i : ℕ =>
      (List.range C).map fun j : ℕ => ((i, j) : ℕ × ℕ)) ↔
      ij.1 < R ∧ ij.2 < C := by
  cases ij with
  | mk i j =>
    simp only [List.mem_flatMap, List.mem_map, List.mem_range]
    constructor
    · rintro ⟨a, ha, b, hb, heq⟩
      cases heq
      exact ⟨ha, hb⟩
    · rintro ⟨h1, h2⟩
      exact ⟨i, h1, j, h2, rfl⟩

/-- C9. For every state whose image observation contains exactly one
item-marked cell `t` (all cells of the domain grid are reachable),
`select_naive_action` returns the first action of the cached path from the
robot's domain-relative cell to `t`, and that path is a genuine path of the
domain graph whose length (`mdist + 1` nodes) is minimal among all paths of
the graph between the two cells — the graph-theoretic shortest-path
distance.  The cached table `pd` is assumed to satisfy the contract of
`nx.all_pairs_dijkstra_path` (hypothesis `hpd`). -/
theorem selectNaiveAction_single_item (pd : Pos → Pos → List Pos)
    (items : List Item) (d : Domain) (rpos t : Pos)
    (pySeq : ℕ → Fin 4) (pyIdx : ℕ)
    (hin : d.contains rpos)
    (hpd : ∀ u v : Pos, InGrid d.height d.width u →
      InGrid d.height d.width v →
      ValidPath d.height d.width u v (pd u v) ∧
        ∀ q, ValidPath d.height d.width u v q → (pd u v).length ≤ q.length)
    (htg : InGrid d.height d.width t)
    (hone : ∀ (i j : ℕ), i < d.height → j < d.width →
      ((((imageObserve items d rpos).getD i []).getD j 0 = 1) ↔
        ((i : ℤ), (j : ℤ)) = t)) :
    selectNaiveAction pd (relItemPos d rpos) (imageObserve items d rpos)
        pySeq pyIdx =
      getFirstAction (pd (relItemPos d rpos) t) ∧
    ValidPath d.height d.width (relItemPos d rpos) t
      (pd (relItemPos d rpos) t) ∧
    (pd (relItemPos d rpos) t).length = mdist (relItemPos d rpos) t + 1 ∧
    (∀ q, ValidPath d.height d.width (relItemPos d rpos) t q →
      (pd (relItemPos d rpos) t).length ≤ q.length) := by
  obtain ⟨hb1, hb2, hb3, hb4⟩ := hin
  have hrin : InGrid d.height d.width (relItemPos d rpos) := by
    have e1 : (relItemPos d rpos).1 = rpos.1 - d.r0 := rfl
    have e2 : (relItemPos d rpos).2 = rpos.2 - d.c0 := rfl
    unfold InGrid Domain.height Domain.width
    rw [e1, e2]
    exact ⟨by omega, by omega, by omega, by omega⟩
  obtain ⟨g1, g2, g3, g4⟩ := htg
  obtain ⟨hvalid, hmin⟩ := hpd (relItemPos d rpos) t hrin ⟨g1, g2, g3, g4⟩
  have hlow : mdist (relItemPos d rpos) t + 1 ≤
      (pd (relItemPos d rpos) t).length :=
    validPath_length_lower _ _ _ _ _ hvalid.1 hvalid.2.1 hvalid.2.2
  have hupp : (pd (relItemPos d rpos) t).length ≤
      mdist (relItemPos d rpos) t + 1 := by
    have := hmin (mkPath (relItemPos d rpos) t)
      (mkPath_valid _ _ hrin ⟨g1, g2, g3, g4⟩)
    rwa [mkPath_length] at this
  have hlen : (pd (relItemPos d rpos) t).length =
      mdist (relItemPos d rpos) t + 1 := le_antisymm hupp hlow
  have htcast : ((t.1.toNat : ℤ), (t.2.toNat : ℤ)) = t :=
    Prod.ext (by omega) (by omega)
  have hti : t.1.toNat < d.height := by
    unfold Domain.height at g2 ⊢
    omega
  have htj : t.2.toNat < d.width := by
    unfold Domain.width at g4 ⊢
    omega
  have hne : t ≠ relItemPos d rpos := by
    intro heq
    have hi0 : (rpos.1 - d.r0).toNat < d.height := by
      unfold Domain.height
      omega
    have hj0 : (rpos.2 - d.c0).toNat < d.width := by
      unfold Domain.width
      omega
    have hcast : (((rpos.1 - d.r0).toNat : ℤ), ((rpos.2 - d.c0).toNat : ℤ)) =
        t := by
      rw [heq]
      unfold relItemPos
      exact Prod.ext (by omega) (by omega)
    have h1 := (hone _ _ hi0 hj0).mpr hcast
    rw [imageObserve_entry items d rpos hi0 hj0] at h1
    have hself : (d.r0 + (((rpos.1 - d.r0).toNat : ℕ) : ℤ),
        d.c0 + (((rpos.2 - d.c0).toNat : ℕ) : ℤ)) = rpos :=
      Prod.ext (by omega) (by omega)
    rw [if_pos hself] at h1
    unfold itemBit at h1
    split at h1 <;> omega
  have hmpos : 1 ≤ mdist (relItemPos d rpos) t := by
    have e1 : (relItemPos d rpos).1 = rpos.1 - d.r0 := rfl
    have e2 : (relItemPos d rpos).2 = rpos.2 - d.c0 := rfl
    by_contra hcon
    push_neg at hcon
    unfold mdist at hcon
    apply hne
    unfold relItemPos
    exact Prod.ext (by omega) (by omega)
  have hH : 0 < d.height := by
    obtain ⟨k1, k2, _, _⟩ := hrin
    omega
  have hR : (imageObserve items d rpos).length = d.height :=
    imageObserve_length items d rpos
  have hC : ((imageObserve items d rpos).headD []).length = d.width :=
    imageObserve_head_length items d rpos hH
  have hclosest : pathToClosestItem pd (relItemPos d rpos)
      (imageObserve items d rpos) = some (pd (relItemPos d rpos) t) := by
    unfold pathToClosestItem
    rw [hR, hC]
    have hmb : mdist (relItemPos d rpos) t < d.height + d.width := by
      obtain ⟨k1, k2, k3, k4⟩ := hrin
      unfold mdist
      omega
    have hlt : (pd (relItemPos d rpos)
        (((t.1.toNat : ℕ) : ℤ), ((t.2.toNat : ℕ) : ℤ))).length - 1 <
        d.height + d.width := by
      rw [htcast, hlen]
      omega
    have hval : ∀ ij ∈ (List.range d.height).flatMap fun i : ℕ =>
        (List.range d.width).map fun j : ℕ => ((i, j) : ℕ × ℕ),
        ((imageObserve items d rpos).getD ij.1 []).getD ij.2 0 = 1 →
          ij = (t.1.toNat, t.2.toNat) := by
      intro ij hmem hv
      obtain ⟨hij1, hij2⟩ := (mem_cells ij).mp hmem
      have := (hone ij.1 ij.2 hij1 hij2).mp hv
      have e1 : (ij.1 : ℤ) = t.1 := congrArg Prod.fst this
      have e2 : (ij.2 : ℤ) = t.2 := congrArg Prod.snd this
      exact Prod.ext (by omega) (by omega)
    have htval : ((imageObserve items d rpos).getD t.1.toNat []).getD
        t.2.toNat 0 = 1 := (hone _ _ hti htj).mpr htcast
    have hmem : ((t.1.toNat, t.2.toNat) : ℕ × ℕ) ∈
        (List.range d.height).flatMap fun i : ℕ =>
          (List.range d.width).map fun j : ℕ => ((i, j) : ℕ × ℕ) :=
      (mem_cells _).mpr ⟨hti, htj⟩
    have hscan := closestScan_hits pd (relItemPos d rpos)
      (imageObserve items d rpos) (t.1.toNat, t.2.toNat) _
      (d.height + d.width) hlt hval htval hmem
    rw [hscan]
    simp only [htcast]
  refine ⟨?_, hvalid, hlen, hmin⟩
  unfold selectNaiveAction
  rw [hclosest]
  show (if (pd (relItemPos d rpos) t).length < 2 then some (pySeq pyIdx)
    else getFirstAction (pd (relItemPos d rpos) t)) =
    getFirstAction (pd (relItemPos d rpos) t)
  rw [if_neg (by omega)]

/-- Witness for C9: 2×2 domain `[0,0,1,1]`, robot at `(0,0)`, single item at
`(0,1)`; the cached table is instantiated with the monotone shortest paths
`mkPath`, which satisfy the Dijkstra contract by `mkPath_valid` and
`validPath_length_lower`. -/
theorem selectNaiveAction_single_item_witness :
    let d : Domain := ⟨0, 0, 1, 1⟩
    let items : List Item := [⟨0, (0, 1), 0⟩]
    let pd : Pos → Pos → List Pos := fun u v => mkPath u v
    selectNaiveAction pd (relItemPos d (0, 0)) (imageObserve items d (0, 0))
        (fun _ => 0) 0 =
      getFirstAction (pd (relItemPos d (0, 0)) (0, 1)) ∧
    ValidPath d.height d.width (relItemPos d (0, 0)) (0, 1)
      (pd (relItemPos d (0, 0)) (0, 1)) ∧
    (pd (relItemPos d (0, 0)) (0, 1)).length =
      mdist (relItemPos d (0, 0)) (0, 1) + 1 ∧
    (∀ q, ValidPath d.height d.width (relItemPos d (0, 0)) (0, 1) q →
      (pd (relItemPos d (0, 0)) (0, 1)).length ≤ q.length) :=
  selectNaiveAction_single_item (fun u v => mkPath u v) [⟨0, (0, 1), 0⟩]
    ⟨0, 0, 1, 1⟩ (0, 0) (0, 1) (fun _ => 0) 0
    (by decide)
    (fun u v hu hv => ⟨mkPath_valid _ _ hu hv,
      fun q hq => by
        rw [mkPath_length]
        exact validPath_length_lower _ _ _ _ _ hq.1 hq.2.1 hq.2.2⟩)
    (by decide)
    (by
      intro i j hi hj
      have hi2 : i < 2 := hi
      have hj2 : j < 2 := hj
      interval_cases i <;> interval_cases j <;> decide)
